import Mathlib

/-!
Verification development for the FinanceHelper frontend's message-rendering
pipeline (ChatMessage component) and its surrounding UI state helpers.

Text is modelled as `List Char` (ASCII fragment of JS strings).  Each JS
function used by the claims is embedded as an executable Lean definition,
translated from the source:

* `escapeHtml`        — the three chained global character replacements;
* `sanitizeMermaid`   — the four chained repair rules (trailing-semicolon
   removal, bracket-label quoting, pipe-label paren escaping, edge-label
   quoting), each as a left-to-right scanner matching the JS regex semantics;
* `parseSegments` / `extractRawMermaid` — the segmenter (fenced pass via the
   global fenced-block regex, then the raw keyword-detection fallback);
* `renderSeg` / `renderRun` — the per-message render loop, abstracted over the
   external `marked.parse` and `mermaid.render` calls, together with the
   sequential issue/resolve/publish event trace of the `async` loop;
* chat / filter state helpers (`useChat`, `useFilters`, stats fetch).
-/

namespace FH

/-- JS whitespace (`\s`), restricted to the ASCII characters that occur in the
modelled strings: space, tab, newline, carriage return, vertical tab, form feed. -/
def jsWs (c : Char) : Bool :=
  c = ' ' || c = '\t' || c = '\n' || c = '\r' || c = '\x0b' || c = '\x0c'

/-- JS `String.prototype.trim` on char lists: drop whitespace at both ends. -/
def trim (cs : List Char) : List Char :=
  ((cs.dropWhile jsWs).reverse.dropWhile jsWs).reverse

/-- The non-whitespace characters of a string, in order. -/
def nonWs (cs : List Char) : List Char := cs.filter (fun c => !jsWs c)

/-- JS `String.prototype.replace(/c/g, rep)` for a single-character pattern. -/
def replaceChar (c : Char) (rep : List Char) (cs : List Char) : List Char :=
  cs.flatMap fun x => if x = c then rep else [x]

/-- `escapeHtml` from the source: replace every `&` by `&amp;`, then every `<`
by `&lt;`, then every `>` by `&gt;`. -/
def escapeHtml (cs : List Char) : List Char :=
  replaceChar '>' "&gt;".data (replaceChar '<' "&lt;".data (replaceChar '&' "&amp;".data cs))

/-- What one source character becomes under the composite of the three
replacements. -/
def escChar (c : Char) : List Char :=
  if c = '&' then "&amp;".data
  else if c = '<' then "&lt;".data
  else if c = '>' then "&gt;".data
  else [c]

/-- Escaping-correctness check: no literal `<` or `>`, and every `&` is
immediately followed by `amp;`, `lt;` or `gt;` (i.e. no unescaped `&`). -/
def escOk : List Char → Bool
  | [] => true
  | c :: rest =>
    if c = '<' then false
    else if c = '>' then false
    else if c = '&' then
      ("amp;".data.isPrefixOf rest || "lt;".data.isPrefixOf rest
        || "gt;".data.isPrefixOf rest) && escOk rest
    else escOk rest

theorem replaceChar_cons (c : Char) (rep : List Char) (x : Char) (l : List Char) :
    replaceChar c rep (x :: l) = (if x = c then rep else [x]) ++ replaceChar c rep l := by
  simp [replaceChar]

theorem replaceChar_append (c : Char) (rep : List Char) (a b : List Char) :
    replaceChar c rep (a ++ b) = replaceChar c rep a ++ replaceChar c rep b := by
  simp [replaceChar]

theorem replaceChar_singleton (c : Char) (rep : List Char) (x : Char) :
    replaceChar c rep [x] = if x = c then rep else [x] := by
  simp [replaceChar]

theorem escapeHtml_nil : escapeHtml [] = [] := rfl

theorem escapeHtml_cons (x : Char) (l : List Char) :
    escapeHtml (x :: l) = escChar x ++ escapeHtml l := by
  unfold escapeHtml
  rw [replaceChar_cons, replaceChar_append, replaceChar_append]
  congr 1
  by_cases hamp : x = '&'
  · subst hamp; decide
  · by_cases hlt : x = '<'
    · subst hlt; simp only [if_neg (by decide : ¬('<' = '&'))]; decide
    · by_cases hgt : x = '>'
      · subst hgt; simp only [if_neg (by decide : ¬('>' = '&'))]; decide
      · rw [if_neg hamp, replaceChar_singleton, if_neg hlt, replaceChar_singleton, if_neg hgt]
        simp [escChar, hamp, hlt, hgt]

theorem escOk_cons_other {c : Char} (h1 : c ≠ '<') (h2 : c ≠ '>') (h3 : c ≠ '&')
    (l : List Char) : escOk (c :: l) = escOk l := by
  simp [escOk, h1, h2, h3]

theorem escOk_amp (l : List Char) : escOk ("&amp;".data ++ l) = escOk l := by
  simp [escOk, List.isPrefixOf]

theorem escOk_lt (l : List Char) : escOk ("&lt;".data ++ l) = escOk l := by
  simp [escOk, List.isPrefixOf]

theorem escOk_gt (l : List Char) : escOk ("&gt;".data ++ l) = escOk l := by
  simp [escOk, List.isPrefixOf]

theorem escOk_escapeHtml (cs : List Char) : escOk (escapeHtml cs) = true := by
  induction cs with
  | nil => simp [escapeHtml_nil, escOk]
  | cons x l ih =>
    rw [escapeHtml_cons]
    by_cases hamp : x = '&'
    · subst hamp
      rw [show escChar '&' = "&amp;".data from rfl, escOk_amp, ih]
    · by_cases hlt : x = '<'
      · subst hlt
        rw [show escChar '<' = "&lt;".data from rfl, escOk_lt, ih]
      · by_cases hgt : x = '>'
        · subst hgt
          rw [show escChar '>' = "&gt;".data from rfl, escOk_gt, ih]
        · rw [show escChar x = [x] from by simp [escChar, hamp, hlt, hgt]]
          rw [List.singleton_append, escOk_cons_other hlt hgt hamp, ih]

/-! ### Sanitizer rule 1: `.replace(/;\s*$/gm, '')`

A match is a `;` followed by the longest run of whitespace that ends at a
multiline `$` position (end of string, or just before a line terminator).
The scanner walks the string once; on a `;` it collects the following
whitespace run and then decides: at end of string the whole run (and the `;`)
is deleted; otherwise the `;` and the run up to (but not including) the last
line terminator in it are deleted; a `;` with no such `$` position stays. -/

/-- The suffix of an all-whitespace run starting at its last line terminator
(`\n` or `\r`), if any. -/
def lastTermSplit : List Char → Option (List Char)
  | [] => none
  | c :: rest =>
    match lastTermSplit rest with
    | some s => some s
    | none => if c = '\n' || c = '\r' then some (c :: rest) else none

/-- Does `;` followed by `rest` match `/;\s*$/m`? -/
def semiTriggerAt (rest : List Char) : Bool :=
  (rest.drop (rest.takeWhile jsWs).length).isEmpty
    || (lastTermSplit (rest.takeWhile jsWs)).isSome

/-- What a pending `;` plus collected whitespace run `m` leaves behind when a
non-whitespace character follows: if the run contains a line terminator the
match ate everything before the last one, else there was no match. -/
def semiEmit (m : List Char) : List Char :=
  match lastTermSplit m with
  | some s => s
  | none => ';' :: m

/-- Rule-1 scanner.  State `some m`: we saw a `;` and collected the
whitespace run `m` (in order) after it. -/
def ssGo : List Char → Option (List Char) → List Char
  | [], none => []
  | [], some _ => []
  | c :: rest, none => if c = ';' then ssGo rest (some []) else c :: ssGo rest none
  | c :: rest, some m =>
    if jsWs c then ssGo rest (some (m ++ [c]))
    else
      semiEmit m ++ (if c = ';' then ssGo rest (some []) else c :: ssGo rest none)

def stripSemis (cs : List Char) : List Char := ssGo cs none

/-! ### Sanitizer rule 2: `.replace(/\[([^\]]+)\]/g, ...)` -/

/-- The characters whose presence in a trimmed label forces quoting. -/
def labelSpecial (c : Char) : Bool := c = '(' || c = ')' || c = '/' || c = ':' || c = '"'

/-- The replacement for one matched bracket label, from the source: keep an
already-quoted label; quote (stripping inner quotes) a label containing a
special character; otherwise keep it. -/
def labelFix (label : List Char) : List Char :=
  if (trim label).head? = some '"' && (trim label).getLast? = some '"' then
    '[' :: label ++ [']']
  else if (trim label).any labelSpecial then
    '[' :: '"' :: ((trim label).filter (fun c => c ≠ '"') ++ ['"', ']'])
  else '[' :: label ++ [']']

/-- Rule-2 scanner.  State `some acc`: inside a bracket, label collected in
reverse.  A label is any nonempty run of non-`]` characters; an unclosed or
empty bracket is left unchanged. -/
def qlGo : List Char → Option (List Char) → List Char
  | [], none => []
  | [], some acc => '[' :: acc.reverse
  | c :: rest, none => if c = '[' then qlGo rest (some []) else c :: qlGo rest none
  | c :: rest, some acc =>
    if c = ']' then
      if acc.isEmpty then '[' :: ']' :: qlGo rest none
      else labelFix acc.reverse ++ qlGo rest none
    else qlGo rest (some (c :: acc))

def quoteLabels (cs : List Char) : List Char := qlGo cs none

/-! ### Sanitizer rule 3: `.replace(/\|([^|]*)\|/g, ...)` -/

/-- Replace `(` and `)` inside a pipe label by `#40;` / `#41;`. -/
def pipeFix (lab : List Char) : List Char :=
  lab.flatMap fun c =>
    if c = '(' then "#40;".data else if c = ')' then "#41;".data else [c]

/-- Rule-3 scanner.  State `some acc`: inside a pipe label (possibly empty),
collected in reverse. -/
def ppGo : List Char → Option (List Char) → List Char
  | [], none => []
  | [], some acc => '|' :: acc.reverse
  | c :: rest, none => if c = '|' then ppGo rest (some []) else c :: ppGo rest none
  | c :: rest, some acc =>
    if c = '|' then '|' :: (pipeFix acc.reverse ++ '|' :: ppGo rest none)
    else ppGo rest (some (c :: acc))

def pipePass (cs : List Char) : List Char := ppGo cs none

/-! ### Sanitizer rule 4:
`.replace(/(--|\.\.|-\.)\s+([^|>\n"]+?)\s+(-->|-.->|==>|\.\.>|\.->)/g, ...)`

Note the second arrow alternative `-.->` has an unescaped `.`: it matches
`-`, any non-line-terminator character, `-`, `>`. -/

/-- Line-style token `(--|\.\.|-\.)` (the alternatives are mutually
exclusive at any position). -/
def startTok (cs : List Char) : Option (List Char × List Char) :=
  if ['-', '-'].isPrefixOf cs then some (['-', '-'], cs.drop 2)
  else if ['.', '.'].isPrefixOf cs then some (['.', '.'], cs.drop 2)
  else if ['-', '.'].isPrefixOf cs then some (['-', '.'], cs.drop 2)
  else none

/-- The `-.- >` wildcard alternative: `-`, any char except a line
terminator, `-`, `>`. -/
def arrowDotWild : List Char → Option (List Char × List Char)
  | '-' :: c2 :: '-' :: '>' :: rest =>
    if c2 = '\n' || c2 = '\r' then none else some (['-', c2, '-', '>'], rest)
  | _ => none

/-- Arrowhead token, alternatives tried in source order. -/
def arrowTok (cs : List Char) : Option (List Char × List Char) :=
  if ['-', '-', '>'].isPrefixOf cs then some (['-', '-', '>'], cs.drop 3)
  else
    match arrowDotWild cs with
    | some r => some r
    | none =>
      if ['=', '=', '>'].isPrefixOf cs then some (['=', '=', '>'], cs.drop 3)
      else if ['.', '.', '>'].isPrefixOf cs then some (['.', '.', '>'], cs.drop 3)
      else if ['.', '-', '>'].isPrefixOf cs then some (['.', '-', '>'], cs.drop 3)
      else none

/-- A character allowed inside the lazy edge label `[^|>\n"]`. -/
def labChar (c : Char) : Bool := !(c = '|' || c = '>' || c = '\n' || c = '"')

/-- `\s+` then arrowhead: try consuming `k` whitespace characters for `k`
from the greedy maximum down to 1. -/
def tryW2 : Nat → List Char → Option (List Char × List Char)
  | 0, _ => none
  | k + 1, cs =>
    match arrowTok (cs.drop (k + 1)) with
    | some r => some r
    | none => tryW2 k cs

def tryW2Arrow (cs : List Char) : Option (List Char × List Char) :=
  tryW2 (cs.takeWhile jsWs).length cs

/-- Lazy label search: with label-so-far `acc` (reversed, shortest first),
first try to finish with `\s+` and an arrowhead, else extend the label by one
allowed character.  Returns (label, arrowhead, rest). -/
def fla : Nat → List Char → List Char → Option (List Char × List Char × List Char)
  | 0, _, _ => none
  | fuel + 1, acc, cs =>
    match (if acc.isEmpty then none else tryW2Arrow cs) with
    | some (ar, rest) => some (acc.reverse, ar, rest)
    | none =>
      match cs with
      | c :: rest => if labChar c then fla fuel (c :: acc) rest else none
      | [] => none

/-- Greedy `\s+` after the line-style token: try `k` whitespace characters
from the maximum down to 1, then the lazy label search. -/
def tryW1 : Nat → List Char → Option (List Char × List Char × List Char)
  | 0, _ => none
  | k + 1, cs =>
    match fla (cs.length + 1) [] (cs.drop (k + 1)) with
    | some r => some r
    | none => tryW1 k cs

/-- Try the whole rule-4 pattern at the start of `cs`:
(line-style token, label, arrowhead, rest after the match). -/
def edgeMatchAt (cs : List Char) : Option (List Char × List Char × List Char × List Char) :=
  match startTok cs with
  | none => none
  | some (st, r1) =>
    match tryW1 (r1.takeWhile jsWs).length r1 with
    | some (lab, ar, rest) => some (st, lab, ar, rest)
    | none => none

/-- Rule-4 scanner: at each position try the pattern; on a match emit
`start ++ " \"" ++ label.trim ++ "\" " ++ arrow` and continue after it. -/
def edgePassGo : Nat → List Char → List Char
  | 0, cs => cs
  | _ + 1, [] => []
  | fuel + 1, c :: rest =>
    match edgeMatchAt (c :: rest) with
    | some (st, lab, ar, after) =>
      st ++ ' ' :: '"' :: (trim lab ++ '"' :: ' ' :: ar) ++ edgePassGo fuel after
    | none => c :: edgePassGo fuel rest

def edgePass (cs : List Char) : List Char := edgePassGo cs.length cs

/-- `sanitizeMermaid` from the source: the four chained replacements. -/
def sanitizeMermaid (cs : List Char) : List Char :=
  edgePass (pipePass (quoteLabels (stripSemis cs)))

/-! ### Segmenter

`FENCED_MERMAID = /```mermaid\s*\n([\s\S]*?)```/g` and
`MERMAID_KEYWORDS = /^(flowchart|graph|...)\b/m`, with
`parseSegments` / `extractRawMermaid` from the source. -/

inductive SegKind | md | mermaid
deriving DecidableEq, Repr

structure Segment where
  kind : SegKind
  text : List Char
deriving DecidableEq, Repr

/-- `\s*\n` right after the fence tag: the greedy whitespace run must end with
a consumed `\n`; the consumed part is the run's longest all-whitespace
portion ending in `\n`.  Returns (consumed, rest). -/
def wsNl (cs : List Char) : Option (List Char × List Char) :=
  match lastNlSplit (cs.takeWhile jsWs) with
  | none => none
  | some k => some (cs.take (k + 1), cs.drop (k + 1))
where
  /-- Index of the last `\n` in the list, if any. -/
  lastNlSplit : List Char → Option Nat
    | [] => none
    | c :: rest =>
      match lastNlSplit rest with
      | some k => some (k + 1)
      | none => if c = '\n' then some 0 else none

/-- Try the fence opener ```` ```mermaid\s*\n ```` at the start of `cs`:
(consumed opener, rest). -/
def tryOpen (cs : List Char) : Option (List Char × List Char) :=
  if "```mermaid".data.isPrefixOf cs then
    match wsNl (cs.drop 10) with
    | some (w, rest) => some ("```mermaid".data ++ w, rest)
    | none => none
  else none

/-- First position where the fence opener matches: (text before the match,
consumed opener, rest). -/
def findOpen : List Char → Option (List Char × List Char × List Char)
  | [] => none
  | c :: rest =>
    match tryOpen (c :: rest) with
    | some (op, rem) => some ([], op, rem)
    | none =>
      match findOpen rest with
      | some (pre, op, rem) => some (c :: pre, op, rem)
      | none => none

/-- Lazy fence body: split at the first ```` ``` ````: (body, rest after the
closer). -/
def findClose : List Char → Option (List Char × List Char)
  | [] => none
  | c :: rest =>
    if "```".data.isPrefixOf (c :: rest) then some ([], (c :: rest).drop 3)
    else
      match findClose rest with
      | some (body, rem) => some (c :: body, rem)
      | none => none

/-- The `matchAll(FENCED_MERMAID)` loop: the list of matches as
(text before the match, consumed opener, raw body) triples, plus the text
after the last match.  If an opener has no closer then no further match
exists at all (any later opener contains ```` ``` ````), so the scan stops. -/
def scanFenced : Nat → List Char → List (List Char × List Char × List Char) × List Char
  | 0, cs => ([], cs)
  | fuel + 1, cs =>
    match findOpen cs with
    | none => ([], cs)
    | some (pre, op, rest) =>
      match findClose rest with
      | none => ([], cs)
      | some (body, rem) =>
        match scanFenced fuel rem with
        | (ms, tail) => ((pre, op, body) :: ms, tail)

/-- The diagram-introducer keywords of `MERMAID_KEYWORDS`. -/
def mermaidKeywords : List (List Char) :=
  ["flowchart", "graph", "sequenceDiagram", "classDiagram", "stateDiagram",
   "erDiagram", "gantt", "pie", "gitgraph", "mindmap", "timeline"].map String.data

/-- JS `\w`. -/
def isWordChar (c : Char) : Bool :=
  ('a' ≤ c && c ≤ 'z') || ('A' ≤ c && c ≤ 'Z') || ('0' ≤ c && c ≤ '9') || c = '_'

/-- Does a diagram keyword followed by a word boundary start here? -/
def kwAt (cs : List Char) : Bool :=
  mermaidKeywords.any fun k =>
    k.isPrefixOf cs &&
      (match cs.drop k.length with
       | [] => true
       | c :: _ => !isWordChar c)

/-- First line start (position 0 or after a `\n`) where a keyword matches:
(text before it, text from it).  The flag says whether the current position
is a line start. -/
def findKw : Bool → List Char → Option (List Char × List Char)
  | atStart, [] => if atStart && kwAt [] then some ([], []) else none
  | atStart, c :: rest =>
    if atStart && kwAt (c :: rest) then some ([], c :: rest)
    else
      match findKw (c = '\n') rest with
      | some (b, m) => some (c :: b, m)
      | none => none

/-- Split on `\n` (JS `String.prototype.split('\n')`). -/
def splitNl : List Char → List (List Char)
  | [] => [[]]
  | c :: rest =>
    if c = '\n' then [] :: splitNl rest
    else
      match splitNl rest with
      | [] => [[c]]
      | l :: ls => (c :: l) :: ls

/-- Join with `\n` (JS `Array.prototype.join('\n')`). -/
def joinNl : List (List Char) → List Char
  | [] => []
  | [l] => l
  | l :: l2 :: ls => l ++ '\n' :: joinNl (l2 :: ls)

/-- JS `String.prototype.includes`: does `pat` occur somewhere in the list? -/
def hasInfix (pat : List Char) : List Char → Bool
  | [] => pat.isPrefixOf []
  | c :: rest => pat.isPrefixOf (c :: rest) || hasInfix pat rest

/-- The line-continuation test of `extractRawMermaid`'s loop. -/
def diagLine (line : List Char) : Bool :=
  trim line = [] ||
  "    ".data.isPrefixOf line ||
  "\t".data.isPrefixOf line ||
  kwAt line ||
  "style ".data.isPrefixOf (trim line) ||
  "classDef ".data.isPrefixOf (trim line) ||
  "class ".data.isPrefixOf (trim line) ||
  hasInfix "-->".data (trim line) ||
  hasInfix "---".data (trim line) ||
  hasInfix "-.->".data (trim line) ||
  "subgraph".data.isPrefixOf (trim line) ||
  "end".data.isPrefixOf (trim line) ||
  "direction ".data.isPrefixOf (trim line) ||
  nodeDeclTest (trim line)
where
  /-- `/^\s*\w+[\[({]/` -/
  nodeDeclTest (s : List Char) : Bool :=
    let r := s.dropWhile jsWs
    let w := r.takeWhile isWordChar
    !w.isEmpty &&
      (match r.drop w.length with
       | c :: _ => c = '[' || c = '(' || c = '{'
       | [] => false)

/-- Drop trailing all-whitespace lines. -/
def popBlank (ls : List (List Char)) : List (List Char) :=
  (ls.reverse.dropWhile (fun l => (trim l).isEmpty)).reverse

/-- `extractRawMermaid` from the source: (trimmed text before the keyword
line, trimmed diagram body, trimmed rest). -/
def extractRawMermaid (cs : List Char) : Option (List Char × List Char × List Char) :=
  match findKw true cs with
  | none => none
  | some (before, fromMatch) =>
    let lines := splitNl fromMatch
    some (trim before,
          trim (joinNl (popBlank (lines.takeWhile diagLine))),
          trim (joinNl (lines.dropWhile diagLine)))

/-- The segment list built from the fenced matches (the body of the
`matchAll` loop plus the trailing-text push). -/
def fencedSegments (cs : List Char) : List Segment :=
  ((scanFenced cs.length cs).1.flatMap fun m =>
      (if m.1.isEmpty then [] else [⟨.md, m.1⟩]) ++ [⟨.mermaid, trim m.2.2⟩])
    ++ (if (scanFenced cs.length cs).2.isEmpty then [] else [⟨.md, (scanFenced cs.length cs).2⟩])

/-- The segment list built from the raw-detection result (prose-before if
non-empty, the diagram body, prose-after if non-empty), or a single prose
segment when no raw diagram was detected. -/
def rawSegments : Option (List Char × List Char × List Char) → List Char → List Segment
  | some (b, m, a), _ =>
    (if b.isEmpty then [] else [⟨.md, b⟩]) ++ [⟨.mermaid, m⟩]
      ++ (if a.isEmpty then [] else [⟨.md, a⟩])
  | none, cs => [⟨.md, cs⟩]

/-- `parseSegments` from the source: fenced pass first; if it found at least
one block, return its segments; else raw detection; else one prose segment. -/
def parseSegments (cs : List Char) : List Segment :=
  if (scanFenced cs.length cs).1.isEmpty then rawSegments (extractRawMermaid cs) cs
  else fencedSegments cs

/-- Concatenation of the segments' texts, in order. -/
def segJoin (segs : List Segment) : List Char := (segs.map Segment.text).flatten

/-- The input with each fenced match's opener and closer deleted (what is
left of the original text once the fence delimiters are removed). -/
def stripFences (cs : List Char) : List Char :=
  ((scanFenced cs.length cs).1.flatMap fun m => m.1 ++ m.2.2) ++ (scanFenced cs.length cs).2

/-! ### The render loop

`render()` from the source: parse segments, then a sequential `for … of` loop
with `await mermaid.render` per diagram segment (sanitized first, then raw,
then the escaped fallback code block), ending in the single assignment
`rendered.value = result`.  The two external renderers are abstract
parameters; `mermaid.render` either resolves with an svg string or rejects
(`Option`).  The trace records, per loop iteration `i`, the start of segment
`i`'s render work (`issue i`) and the push of its result (`resolve i`), and
the final assignment (`publish`). -/

inductive RenderedUnit
  | html (payload : List Char)
  | svg (payload : List Char)
deriving DecidableEq, Repr

structure RenderEnv where
  marked : List Char → List Char
  mermaidRender : List Char → Option (List Char)

/-- The fallback code block markup around the escaped source. -/
def fallbackPre (code : List Char) : List Char :=
  "<pre class=\"bg-gray-200 p-2 rounded text-sm overflow-x-auto\"><code>".data
    ++ code ++ "</code></pre>".data

/-- One loop iteration of `render()`: prose via `marked.parse`; diagram via
the three-tier fallback chain. -/
def renderSeg (env : RenderEnv) (s : Segment) : RenderedUnit :=
  match s.kind with
  | .md => .html (env.marked s.text)
  | .mermaid =>
    match env.mermaidRender (sanitizeMermaid s.text) with
    | some svg => .svg svg
    | none =>
      match env.mermaidRender s.text with
      | some svg => .svg svg
      | none => .html (fallbackPre (escapeHtml s.text))

inductive Ev
  | issue (i : Nat)
  | resolve (i : Nat)
  | publish
deriving DecidableEq, Repr

/-- The sequential `for` loop, starting at segment index `i`: the unit list
pushed to `result` and the event trace. -/
def renderGo (env : RenderEnv) : Nat → List Segment → List RenderedUnit × List Ev
  | _, [] => ([], [])
  | i, s :: rest =>
    ((renderSeg env s) :: (renderGo env (i + 1) rest).1,
      Ev.issue i :: Ev.resolve i :: (renderGo env (i + 1) rest).2)

/-- `render()` over a segment list: run the loop, then publish the whole list
in one assignment. -/
def renderRun (env : RenderEnv) (segs : List Segment) : List RenderedUnit × List Ev :=
  ((renderGo env 0 segs).1, (renderGo env 0 segs).2 ++ [Ev.publish])

/-! ### `useFilters.loadFilters` and the header stats fetch

`loadFilters` awaits `Promise.all` of the three metadata fetches with **no**
try/catch: a rejection propagates to the caller and no list is assigned.  The
header's stats fetch is wrapped in try/catch and failure is ignored. -/

structure FiltersState where
  owners : List String
  companies : List String
  categories : List String
deriving DecidableEq, Repr

/-- A fetch result: resolved value or rejection reason. -/
abbrev Fetch (α : Type) := Except String α

/-- `loadFilters`: `Promise.all` rejects if any fetch rejects (no handler in
the function), otherwise all three lists are assigned. -/
def loadFilters (o co ca : Fetch (List String)) (st : FiltersState) :
    Except String FiltersState :=
  match o, co, ca with
  | .ok o', .ok co', .ok ca' => .ok { st with owners := o', companies := co', categories := ca' }
  | .error e, _, _ => .error e
  | _, .error e, _ => .error e
  | _, _, .error e => .error e

structure Stats where
  documents : Nat
  owners : Nat
  companies : Nat
  categories : Nat
deriving DecidableEq, Repr

/-- The header's `onMounted` stats fetch: `try { stats.value = await getStats() }
catch {}` — on failure the state is left as it was (initially `null`). -/
def mountStats (r : Fetch Stats) (cur : Option Stats) : Option Stats :=
  match r with
  | .ok s => some s
  | .error _ => cur

/-! ### `useChat` message list -/

structure ChatMsg where
  role : String
  content : String
  sources : List String
deriving DecidableEq, Repr

/-- The seeded assistant greeting. -/
def initialGreeting : ChatMsg :=
  ⟨"assistant", "Ask me anything and I'll retrieve the docs and cite relevant sources.", []⟩

def initMessages : List ChatMsg := [initialGreeting]

/-- One user interaction: `sendMessage` with the query's outcome
(answer and sources, or a rejection message), or `clearChat`. -/
inductive ChatEvent
  | send (q : String) (res : Except String (String × List String))
  | clear

/-- `sendMessage` pushes the user message then the assistant (or error)
message; `clearChat` sets the list to `[messages.value[0]]`. -/
def chatStep (ms : List ChatMsg) : ChatEvent → List ChatMsg
  | .send q (.ok (ans, srcs)) => ms ++ [⟨"user", q, []⟩, ⟨"assistant", ans, srcs⟩]
  | .send q (.error e) => ms ++ [⟨"user", q, []⟩, ⟨"assistant", "Error: " ++ e, []⟩]
  | .clear => ms.take 1

/-- The message list after a sequence of interactions from the initial state. -/
def chatRun (evs : List ChatEvent) : List ChatMsg := evs.foldl chatStep initMessages

/-! ### `useFilters.getActiveFilters` -/

/-- The four selection refs (`null` or a string; an empty string is falsy). -/
structure Selections where
  owner : Option String
  company : Option String
  category : Option String
  year : Option String
deriving DecidableEq, Repr

/-- JS truthiness of a string-or-null selection. -/
def isTruthy : Option String → Bool
  | none => false
  | some s => !s.isEmpty

def isHexDigit (c : Char) : Bool :=
  ('0' ≤ c && c ≤ '9') || ('a' ≤ c && c ≤ 'f') || ('A' ≤ c && c ≤ 'F')

def hexDigitVal (c : Char) : Nat :=
  if '0' ≤ c && c ≤ '9' then c.toNat - '0'.toNat
  else if 'a' ≤ c && c ≤ 'f' then c.toNat - 'a'.toNat + 10
  else c.toNat - 'A'.toNat + 10

def digitsVal (base : Nat) (ds : List Char) : Nat :=
  ds.foldl (fun acc c => acc * base + hexDigitVal c) 0

/-- JS `parseInt(s)` (no radix argument): skip leading whitespace, optional
sign, then `0x`/`0X` hex digits or decimal digits; `none` is `NaN`. -/
def jsParseInt (s : String) : Option Int :=
  let cs := s.data.dropWhile jsWs
  let sign : Int := if cs.head? = some '-' then -1 else 1
  let cs := if cs.head? = some '-' || cs.head? = some '+' then cs.tail else cs
  if "0x".data.isPrefixOf cs || "0X".data.isPrefixOf cs then
    let ds := (cs.drop 2).takeWhile isHexDigit
    if ds.isEmpty then none else some (sign * digitsVal 16 ds)
  else
    let ds := cs.takeWhile (fun c => '0' ≤ c && c ≤ '9')
    if ds.isEmpty then none else some (sign * digitsVal 10 ds)

/-- The object returned by `getActiveFilters`: a field is `none` when the key
is absent.  The year value is itself `Option Int` because `parseInt` can
yield `NaN`. -/
structure ActiveFilters where
  owner : Option String
  company : Option String
  category : Option String
  year : Option (Option Int)
deriving DecidableEq, Repr

/-- `getActiveFilters` from the source: a key is added exactly when the
selection is truthy; the year is `parseInt` of the selected string. -/
def getActiveFilters (sel : Selections) : ActiveFilters :=
  { owner := if isTruthy sel.owner then sel.owner else none
    company := if isTruthy sel.company then sel.company else none
    category := if isTruthy sel.category then sel.category else none
    year :=
      match sel.year with
      | some s => if s.isEmpty then none else some (jsParseInt s)
      | none => none }

/-! ## Segmenter split and reconstruction lemmas (claims C2, C3) -/

theorem wsNl_eq {cs w rest : List Char} (h : wsNl cs = some (w, rest)) :
    cs = w ++ rest ∧ w ≠ [] := by
  unfold wsNl at h
  cases hk : wsNl.lastNlSplit (cs.takeWhile jsWs) with
  | none => rw [hk] at h; exact absurd h (by simp)
  | some k =>
    rw [hk] at h
    injection h with h'
    injection h' with h1 h2
    subst h1; subst h2
    exact ⟨(List.take_append_drop (k + 1) cs).symm, by
      intro hw
      rcases List.take_eq_nil_iff.mp hw with h1 | h1
      · exact absurd h1 (by simp)
      · subst h1
        exact absurd hk (by simp [wsNl.lastNlSplit])⟩
where
  lastNlSplit_lt : ∀ (l : List Char) (k : Nat), wsNl.lastNlSplit l = some k → k < l.length := by
    intro l
    induction l with
    | nil => intro k h; exact absurd h (by simp [wsNl.lastNlSplit])
    | cons c rest ih =>
      intro k h
      rw [wsNl.lastNlSplit] at h
      cases hr : wsNl.lastNlSplit rest with
      | some j =>
        rw [hr] at h
        injection h with h'
        subst h'
        have := ih j hr
        simp
        omega
      | none =>
        rw [hr] at h
        by_cases hc : c = '\n'
        · rw [if_pos hc] at h
          injection h with h'
          subst h'
          simp
        · rw [if_neg hc] at h
          exact absurd h (by simp)

theorem tryOpen_eq {cs op rem : List Char} (h : tryOpen cs = some (op, rem)) :
    cs = op ++ rem ∧ op ≠ [] := by
  unfold tryOpen at h
  by_cases hp : "```mermaid".data.isPrefixOf cs = true
  · rw [if_pos hp] at h
    cases hw : wsNl (cs.drop 10) with
    | none => rw [hw] at h; exact absurd h (by simp)
    | some v =>
      obtain ⟨w, rest⟩ := v
      rw [hw] at h
      injection h with h'
      injection h' with h1 h2
      subst h1; subst h2
      obtain ⟨hsplit, _⟩ := wsNl_eq hw
      obtain ⟨t, ht⟩ := List.isPrefixOf_iff_prefix.mp hp
      have hdrop : cs.drop 10 = t := by
        rw [← ht]
        simpa using List.drop_left "```mermaid".data t
      constructor
      · rw [List.append_assoc, ← hsplit, hdrop, ht]
      · simp
  · rw [if_neg hp] at h
    exact absurd h (by simp)

theorem findOpen_eq : ∀ {cs pre op rem : List Char},
    findOpen cs = some (pre, op, rem) → cs = pre ++ op ++ rem ∧ op ≠ []
  | [], pre, op, rem, h => absurd h (by simp [findOpen])
  | c :: rest, pre, op, rem, h => by
    rw [findOpen] at h
    cases ho : tryOpen (c :: rest) with
    | some v =>
      obtain ⟨op', rem'⟩ := v
      rw [ho] at h
      injection h with h'
      injection h' with h1 h'
      injection h' with h2 h3
      subst h1; subst h2; subst h3
      obtain ⟨he, hne⟩ := tryOpen_eq ho
      exact ⟨by simpa using he, hne⟩
    | none =>
      rw [ho] at h
      cases hf : findOpen rest with
      | none => rw [hf] at h; exact absurd h (by simp)
      | some v =>
        obtain ⟨pre', op', rem'⟩ := v
        rw [hf] at h
        injection h with h'
        injection h' with h1 h'
        injection h' with h2 h3
        subst h1; subst h2; subst h3
        obtain ⟨he, hne⟩ := findOpen_eq hf
        exact ⟨by rw [List.cons_append, List.cons_append, ← he], hne⟩

theorem findClose_eq : ∀ {cs body rem : List Char},
    findClose cs = some (body, rem) → cs = body ++ '`' :: '`' :: '`' :: rem
  | [], body, rem, h => absurd h (by simp [findClose])
  | c :: rest, body, rem, h => by
    rw [findClose] at h
    by_cases hp : "```".data.isPrefixOf (c :: rest) = true
    · rw [if_pos hp] at h
      injection h with h'
      injection h' with h1 h2
      subst h1; subst h2
      obtain ⟨t, ht⟩ := List.isPrefixOf_iff_prefix.mp hp
      have : (c :: rest).drop 3 = t := by
        rw [← ht]
        simpa using List.drop_left "```".data t
      rw [List.nil_append, this, ← ht]
      rfl
    · rw [if_neg hp] at h
      cases hf : findClose rest with
      | none => rw [hf] at h; exact absurd h (by simp)
      | some v =>
        obtain ⟨body', rem'⟩ := v
        rw [hf] at h
        injection h with h'
        injection h' with h1 h2
        subst h1; subst h2
        rw [List.cons_append, ← findClose_eq hf]

theorem scanFenced_reconstruct : ∀ (fuel : Nat) (cs : List Char), cs.length ≤ fuel →
    cs = ((scanFenced fuel cs).1.flatMap fun m => m.1 ++ m.2.1 ++ m.2.2 ++ "```".data)
          ++ (scanFenced fuel cs).2
  | 0, cs, h => by
    have : cs = [] := List.length_eq_zero.mp (Nat.le_zero.mp h)
    subst this
    rfl
  | fuel + 1, cs, h => by
    cases ho : findOpen cs with
    | none => simp [scanFenced, ho]
    | some v =>
      obtain ⟨pre, op, rest⟩ := v
      cases hc : findClose rest with
      | none => simp [scanFenced, ho, hc]
      | some w =>
        obtain ⟨body, rem⟩ := w
        obtain ⟨hcs, hop⟩ := findOpen_eq ho
        have hrest := findClose_eq hc
        have hlen : rem.length ≤ fuel := by
          have h1 := congrArg List.length hcs
          have h2 := congrArg List.length hrest
          simp [List.length_append] at h1 h2
          have hopl : 1 ≤ op.length := by
            cases op with
            | nil => exact absurd rfl hop
            | cons _ _ => simp
          omega
        have ih := scanFenced_reconstruct fuel rem hlen
        cases hsc : scanFenced fuel rem with
        | mk ms tail =>
          rw [hsc] at ih
          have hstep : scanFenced (fuel + 1) cs = ((pre, op, body) :: ms, tail) := by
            simp [scanFenced, ho, hc, hsc]
          rw [hstep]
          simp only [List.flatMap_cons]
          conv_lhs => rw [hcs, hrest, ih]
          simp [List.append_assoc]

theorem scanFenced_nil_snd (fuel : Nat) (cs : List Char)
    (h : (scanFenced fuel cs).1 = []) : (scanFenced fuel cs).2 = cs := by
  cases fuel with
  | zero => rfl
  | succ n =>
    cases ho : findOpen cs with
    | none => simp [scanFenced, ho]
    | some v =>
      obtain ⟨pre, op, rest⟩ := v
      cases hc : findClose rest with
      | none => simp [scanFenced, ho, hc]
      | some w =>
        obtain ⟨body, rem⟩ := w
        cases hsc : scanFenced n rem with
        | mk ms tail =>
          have hstep : scanFenced (n + 1) cs = ((pre, op, body) :: ms, tail) := by
            simp [scanFenced, ho, hc, hsc]
          rw [hstep] at h
          simp at h

theorem findKw_eq : ∀ (cs : List Char) (b : Bool) {pre m : List Char},
    findKw b cs = some (pre, m) → cs = pre ++ m
  | [], b, pre, m, h => by
    rw [findKw] at h
    by_cases hs : (b && kwAt []) = true
    · rw [if_pos hs] at h
      injection h with h'
      injection h' with h1 h2
      subst h1; subst h2
      rfl
    · rw [if_neg hs] at h
      exact absurd h (by simp)
  | c :: rest, b, pre, m, h => by
    rw [findKw] at h
    by_cases hs : (b && kwAt (c :: rest)) = true
    · rw [if_pos hs] at h
      injection h with h'
      injection h' with h1 h2
      subst h1; subst h2
      rfl
    · rw [if_neg hs] at h
      cases hf : findKw (c = '\n') rest with
      | none => rw [hf] at h; exact absurd h (by simp)
      | some v =>
        obtain ⟨b', m'⟩ := v
        rw [hf] at h
        injection h with h'
        injection h' with h1 h2
        subst h1; subst h2
        rw [List.cons_append, ← findKw_eq rest (c = '\n') hf]

theorem splitNl_ne_nil : ∀ cs : List Char, splitNl cs ≠ []
  | [] => by simp [splitNl]
  | c :: rest => by
    rw [splitNl]
    by_cases hc : c = '\n'
    · simp [hc]
    · rw [if_neg hc]
      cases hs : splitNl rest with
      | nil => exact absurd hs (splitNl_ne_nil rest)
      | cons l ls => simp

theorem joinNl_splitNl : ∀ cs : List Char, joinNl (splitNl cs) = cs
  | [] => rfl
  | c :: rest => by
    rw [splitNl]
    by_cases hc : c = '\n'
    · subst hc
      rw [if_pos rfl]
      cases hs : splitNl rest with
      | nil => exact absurd hs (splitNl_ne_nil rest)
      | cons l ls =>
        have := joinNl_splitNl rest
        rw [hs] at this
        show joinNl ([] :: l :: ls) = '\n' :: rest
        rw [joinNl, this]
        rfl
    · rw [if_neg hc]
      cases hs : splitNl rest with
      | nil => exact absurd hs (splitNl_ne_nil rest)
      | cons l ls =>
        have := joinNl_splitNl rest
        rw [hs] at this
        cases ls with
        | nil =>
          show joinNl [c :: l] = c :: rest
          rw [joinNl]
          rw [show joinNl [l] = l from rfl] at this
          rw [this]
        | cons l2 ls2 =>
          show joinNl ((c :: l) :: l2 :: ls2) = c :: rest
          rw [joinNl, ← this]
          rfl

/-! ### `nonWs` lemmas -/

theorem nonWs_append (a b : List Char) : nonWs (a ++ b) = nonWs a ++ nonWs b :=
  List.filter_append ..

theorem nonWs_ws_cons {c : Char} (h : jsWs c = true) (l : List Char) :
    nonWs (c :: l) = nonWs l := by
  simp [nonWs, h]

theorem nonWs_dropWhile (l : List Char) : nonWs (l.dropWhile jsWs) = nonWs l := by
  induction l with
  | nil => rfl
  | cons c rest ih =>
    by_cases hc : jsWs c = true
    · rw [List.dropWhile_cons_of_pos hc, ih, nonWs_ws_cons hc]
    · rw [List.dropWhile_cons_of_neg (by simpa using hc)]

theorem nonWs_reverse (l : List Char) : nonWs l.reverse = (nonWs l).reverse :=
  List.filter_reverse ..

theorem nonWs_trim (l : List Char) : nonWs (trim l) = nonWs l := by
  unfold trim
  rw [nonWs_reverse, nonWs_dropWhile, nonWs_reverse, List.reverse_reverse, nonWs_dropWhile]

theorem nonWs_joinNl : ∀ L : List (List Char), nonWs (joinNl L) = (L.map nonWs).flatten
  | [] => rfl
  | [l] => by simp [joinNl]
  | l :: l2 :: ls => by
    rw [show joinNl (l :: l2 :: ls) = l ++ '\n' :: joinNl (l2 :: ls) from rfl]
    rw [nonWs_append, nonWs_ws_cons (by decide), nonWs_joinNl (l2 :: ls)]
    simp

theorem nonWs_eq_nil_of_trim_nil {l : List Char} (h : (trim l).isEmpty = true) :
    nonWs l = [] := by
  rw [← nonWs_trim]
  rw [List.isEmpty_iff.mp h]
  rfl

theorem flatten_nonWs_popBlank (L : List (List Char)) :
    ((popBlank L).map nonWs).flatten = (L.map nonWs).flatten := by
  have key : ∀ R : List (List Char),
      ((R.dropWhile fun l => (trim l).isEmpty).reverse.map nonWs).flatten
        = (R.reverse.map nonWs).flatten := by
    intro R
    induction R with
    | nil => rfl
    | cons l rs ih =>
      rw [List.dropWhile_cons]
      by_cases hb : ((trim l).isEmpty : Bool) = true
      · rw [if_pos hb, ih]
        rw [List.reverse_cons, List.map_append, List.flatten_append]
        simp [nonWs_eq_nil_of_trim_nil hb]
      · rw [if_neg hb]
  unfold popBlank
  have h := key L.reverse
  rw [List.reverse_reverse] at h
  exact h

theorem segJoin_append (a b : List Segment) : segJoin (a ++ b) = segJoin a ++ segJoin b := by
  simp [segJoin]

/-- Coverage for the raw-detection pass: the three (trimmed) pieces carry
exactly the non-whitespace characters of the input. -/
theorem extractRaw_nonWs {cs b m a : List Char}
    (h : extractRawMermaid cs = some (b, m, a)) :
    nonWs b ++ (nonWs m ++ nonWs a) = nonWs cs := by
  unfold extractRawMermaid at h
  cases hk : findKw true cs with
  | none => rw [hk] at h; exact absurd h (by simp)
  | some v =>
    obtain ⟨before, fromMatch⟩ := v
    rw [hk] at h
    injection h with h'
    injection h' with h1 h'
    injection h' with h2 h3
    subst h1; subst h2; subst h3
    rw [nonWs_trim, nonWs_trim, nonWs_trim]
    rw [nonWs_joinNl, nonWs_joinNl, flatten_nonWs_popBlank]
    rw [← List.flatten_append, ← List.map_append]
    rw [List.takeWhile_append_dropWhile diagLine (splitNl fromMatch)]
    rw [← nonWs_joinNl, joinNl_splitNl]
    rw [← nonWs_append, ← findKw_eq cs true hk]

/-- Coverage for the fenced pass's segment construction, relative to the text
with the fence delimiters removed. -/
theorem fenced_nonWs_aux :
    ∀ (ms : List (List Char × List Char × List Char)) (tl : List Char),
    nonWs (segJoin ((ms.flatMap fun m =>
        (if m.1.isEmpty then [] else [⟨.md, m.1⟩]) ++ [⟨.mermaid, trim m.2.2⟩])
          ++ (if tl.isEmpty then [] else [⟨.md, tl⟩])))
      = nonWs ((ms.flatMap fun m => m.1 ++ m.2.2) ++ tl)
  | [], tl => by
    by_cases ht : (tl.isEmpty : Bool) = true
    · simp [ht, List.isEmpty_iff.mp ht, segJoin]
    · simp [ht, segJoin]
  | m :: ms, tl => by
    obtain ⟨pre, op, body⟩ := m
    have ih := fenced_nonWs_aux ms tl
    have h1 : nonWs (segJoin (if pre.isEmpty then ([] : List Segment) else [⟨.md, pre⟩]))
        = nonWs pre := by
      by_cases hp : (pre.isEmpty : Bool) = true
      · simp [hp, List.isEmpty_iff.mp hp, segJoin]
      · simp [hp, segJoin]
    have h2 : nonWs (segJoin [(⟨.mermaid, trim body⟩ : Segment)]) = nonWs body := by
      simp [segJoin, nonWs_trim]
    simp only [List.flatMap_cons, List.append_assoc]
    conv_rhs => rw [nonWs_append, nonWs_append]
    rw [segJoin_append, nonWs_append, segJoin_append, nonWs_append, ih, h1, h2]

/-! ## Claim C2 -/

/-- C2 (counterexample): on `"```mermaid\nA\n```"` the concatenated segment
texts are just `"A"`: the fence delimiters are dropped by segmentation, so
concatenation does not reconstruct the input even ignoring whitespace. -/
theorem claim_C2_counterexample :
    ¬ (nonWs (segJoin (parseSegments "```mermaid\nA\n```".data))
        = nonWs "```mermaid\nA\n```".data) := by decide

/-- C2 (amended): segmentation always yields a non-empty segment list; the
input splits exactly into the fenced matches (text before, opener, body,
closer) plus a tail; concatenating the segments' texts reconstructs, up to
whitespace, the input *with the fence delimiters removed* (for inputs with
no fenced block this is the input itself); the empty input yields a single
empty prose segment. -/
theorem claim_C2_segmentation_coverage (cs : List Char) :
    parseSegments cs ≠ [] ∧
    cs = ((scanFenced cs.length cs).1.flatMap fun m => m.1 ++ m.2.1 ++ m.2.2 ++ "```".data)
          ++ (scanFenced cs.length cs).2 ∧
    nonWs (segJoin (parseSegments cs)) = nonWs (stripFences cs) ∧
    parseSegments ([] : List Char) = [⟨.md, []⟩] := by
  refine ⟨?_, scanFenced_reconstruct cs.length cs (Nat.le_refl _), ?_, by decide⟩
  · unfold parseSegments
    by_cases hms : ((scanFenced cs.length cs).1.isEmpty : Bool) = true
    · rw [if_pos hms]
      cases hr : extractRawMermaid cs with
      | none => simp [rawSegments]
      | some v =>
        obtain ⟨b, m, a⟩ := v
        simp only [rawSegments]
        exact List.append_ne_nil_of_left_ne_nil
          (List.append_ne_nil_of_right_ne_nil _ (by simp)) _
    · rw [if_neg hms]
      unfold fencedSegments
      cases hsc : (scanFenced cs.length cs).1 with
      | nil => rw [hsc] at hms; simp at hms
      | cons m0 ms' =>
        simp only [List.flatMap_cons, List.append_assoc]
        exact List.append_ne_nil_of_right_ne_nil _
          (List.append_ne_nil_of_left_ne_nil (by simp) _)
  · by_cases hms : ((scanFenced cs.length cs).1.isEmpty : Bool) = true
    · have hnil : (scanFenced cs.length cs).1 = [] := by simpa using hms
      have htail := scanFenced_nil_snd cs.length cs hnil
      have hstrip : stripFences cs = cs := by
        unfold stripFences
        rw [hnil, htail]
        rfl
      rw [hstrip]
      unfold parseSegments
      rw [if_pos hms]
      cases hr : extractRawMermaid cs with
      | none => simp [rawSegments, segJoin]
      | some v =>
        obtain ⟨b, m, a⟩ := v
        simp only [rawSegments]
        rw [segJoin_append, segJoin_append, nonWs_append, nonWs_append]
        have hb : nonWs (segJoin (if b.isEmpty then ([] : List Segment) else [⟨.md, b⟩]))
            = nonWs b := by
          by_cases h : (b.isEmpty : Bool) = true
          · simp [h, List.isEmpty_iff.mp h, segJoin]
          · simp [h, segJoin]
        have ha : nonWs (segJoin (if a.isEmpty then ([] : List Segment) else [⟨.md, a⟩]))
            = nonWs a := by
          by_cases h : (a.isEmpty : Bool) = true
          · simp [h, List.isEmpty_iff.mp h, segJoin]
          · simp [h, segJoin]
        rw [hb, ha]
        rw [show segJoin [⟨SegKind.mermaid, m⟩] = m from by simp [segJoin]]
        rw [List.append_assoc]
        exact extractRaw_nonWs hr
    · unfold parseSegments
      rw [if_neg hms]
      unfold fencedSegments stripFences
      exact fenced_nonWs_aux (scanFenced cs.length cs).1 (scanFenced cs.length cs).2

/-! ## Claim C3 -/

theorem fenced_filter_aux :
    ∀ (ms : List (List Char × List Char × List Char)) (tl : List Char),
    (((ms.flatMap fun m =>
        (if m.1.isEmpty then [] else [Segment.mk .md m.1])
          ++ [Segment.mk .mermaid (trim m.2.2)])
        ++ (if tl.isEmpty then [] else [Segment.mk .md tl])).filter
        fun s => s.kind == SegKind.mermaid)
      = ms.map fun m => Segment.mk .mermaid (trim m.2.2)
  | [], tl => by
    by_cases ht : (tl.isEmpty : Bool) = true
    · simp [ht]
    · simp [ht]
  | m :: ms, tl => by
    have ih := fenced_filter_aux ms tl
    simp only [List.flatMap_cons, List.append_assoc, List.filter_append] at ih ⊢
    rw [ih]
    by_cases hp : (m.1.isEmpty : Bool) = true
    · simp [hp]
    · simp [hp]

/-- C3: when the input contains at least one fenced diagram block, the
segmenter returns exactly the fenced pass's segments (raw keyword detection
is skipped), and the diagram segments are exactly the trimmed fenced bodies
in order — so a raw diagram keyword line outside every fenced block lands in
a prose segment. -/
theorem claim_C3_fenced_precedence (cs : List Char)
    (h : (scanFenced cs.length cs).1 ≠ []) :
    parseSegments cs = fencedSegments cs ∧
    (parseSegments cs).filter (fun s => s.kind == SegKind.mermaid)
      = (scanFenced cs.length cs).1.map (fun m => ⟨.mermaid, trim m.2.2⟩) := by
  have hne : ((scanFenced cs.length cs).1.isEmpty : Bool) ≠ true := by
    simpa using h
  constructor
  · unfold parseSegments
    rw [if_neg hne]
  · unfold parseSegments
    rw [if_neg hne]
    unfold fencedSegments
    exact fenced_filter_aux (scanFenced cs.length cs).1 (scanFenced cs.length cs).2

theorem claim_C3_fenced_precedence_witness :
    (scanFenced ("```mermaid\nA --> B\n```\nflowchart TD".data).length
        "```mermaid\nA --> B\n```\nflowchart TD".data).1 ≠ [] ∧
    parseSegments "```mermaid\nA --> B\n```\nflowchart TD".data
      = fencedSegments "```mermaid\nA --> B\n```\nflowchart TD".data ∧
    parseSegments "```mermaid\nA --> B\n```\nflowchart TD".data
      = [⟨.mermaid, "A --> B".data⟩, ⟨.md, "\nflowchart TD".data⟩] :=
  ⟨by decide, (claim_C3_fenced_precedence _ (by decide)).1, by decide⟩

/-! ## Sanitizer trigger predicates and identity lemmas (claims C4, C6) -/

/-- No position of the text matches rule 1's `/;\s*$/m`. -/
def noSemiTrigger : List Char → Bool
  | [] => true
  | c :: rest => (if c = ';' then !(semiTriggerAt rest) else true) && noSemiTrigger rest

/-- Rule-2 trigger check, mirroring `qlGo`: every matched bracket label is
mapped to itself by `labelFix`. -/
def nlGo : List Char → Option (List Char) → Bool
  | [], _ => true
  | c :: rest, none => if c = '[' then nlGo rest (some []) else nlGo rest none
  | c :: rest, some acc =>
    if c = ']' then
      if acc.isEmpty then nlGo rest none
      else if labelFix acc.reverse = '[' :: acc.reverse ++ [']'] then nlGo rest none
      else false
    else nlGo rest (some (c :: acc))

/-- Rule-3 trigger check, mirroring `ppGo`: no matched pipe label contains a
parenthesis. -/
def npGo : List Char → Option (List Char) → Bool
  | [], _ => true
  | c :: rest, none => if c = '|' then npGo rest (some []) else npGo rest none
  | c :: rest, some acc =>
    if c = '|' then
      if acc.any (fun x => x = '(' || x = ')') then false else npGo rest none
    else npGo rest (some (c :: acc))

/-- No position of the text matches rule 4's edge-label pattern. -/
def noEdgeTrigger : List Char → Bool
  | [] => true
  | c :: rest => (edgeMatchAt (c :: rest)).isNone && noEdgeTrigger rest

theorem takeWhile_all_append {p : Char → Bool} :
    ∀ (m : List Char) (c : Char) (l : List Char), (∀ x ∈ m, p x = true) → p c = false →
      (m ++ c :: l).takeWhile p = m
  | [], c, l, _, hc => by simp [List.takeWhile, hc]
  | x :: m, c, l, hm, hc => by
    have hx : p x = true := hm x (by simp)
    simp only [List.cons_append, List.takeWhile_cons, hx, if_true]
    rw [takeWhile_all_append m c l (fun y hy => hm y (by simp [hy])) hc]

theorem ssGo_id : ∀ cs : List Char,
    (noSemiTrigger cs = true → ssGo cs none = cs) ∧
    (∀ m, (∀ x ∈ m, jsWs x = true) → semiTriggerAt (m ++ cs) = false →
      noSemiTrigger cs = true → ssGo cs (some m) = ';' :: (m ++ cs))
  | [] => by
    refine ⟨fun _ => rfl, fun m hm htr _ => absurd htr ?_⟩
    simp only [List.append_nil, semiTriggerAt]
    rw [List.takeWhile_eq_self_iff.mpr hm]
    simp
  | c :: rest => by
    have ih := ssGo_id rest
    constructor
    · intro h
      simp only [noSemiTrigger, Bool.and_eq_true] at h
      by_cases hc : c = ';'
      · subst hc
        simp only [if_pos rfl, Bool.not_eq_true'] at h
        show ssGo rest (some []) = ';' :: rest
        simpa using ih.2 [] (by simp) (by simpa using h.1) h.2
      · simp only [ssGo, if_neg hc]
        rw [ih.1 h.2]
    · intro m hm htr h
      simp only [noSemiTrigger, Bool.and_eq_true] at h
      by_cases hws : jsWs c = true
      · show ssGo (c :: rest) (some m) = ';' :: (m ++ c :: rest)
        rw [ssGo, if_pos hws]
        have := ih.2 (m ++ [c])
          (by intro x hx
              rcases List.mem_append.mp hx with h1 | h1
              · exact hm x h1
              · simpa [List.mem_singleton.mp h1] using hws)
          (by simpa using htr)
          h.2
        simpa using this
      · have htw : (m ++ c :: rest).takeWhile jsWs = m :=
          takeWhile_all_append m c rest hm (by simpa using hws)
        have hterm : lastTermSplit m = none := by
          by_contra hne
          apply absurd htr
          simp only [semiTriggerAt, htw]
          rcases Option.ne_none_iff_exists.mp (by simpa using hne) with ⟨s, hs⟩
          simp [← hs]
        have hemit : semiEmit m = ';' :: m := by simp [semiEmit, hterm]
        show ssGo (c :: rest) (some m) = ';' :: (m ++ c :: rest)
        rw [ssGo, if_neg (by simpa using hws), hemit]
        by_cases hc : c = ';'
        · subst hc
          simp only [if_pos rfl, Bool.not_eq_true'] at h
          rw [if_pos rfl, ih.2 [] (by simp) (by simpa using h.1) h.2]
          simp
        · rw [if_neg hc, ih.1 h.2]
          simp

theorem stripSemis_id (cs : List Char) (h : noSemiTrigger cs = true) :
    stripSemis cs = cs := (ssGo_id cs).1 h

theorem qlGo_id : ∀ cs : List Char,
    (nlGo cs none = true → qlGo cs none = cs) ∧
    (∀ acc, nlGo cs (some acc) = true → qlGo cs (some acc) = '[' :: (acc.reverse ++ cs))
  | [] => by
    refine ⟨fun _ => rfl, fun acc _ => ?_⟩
    simp [qlGo]
  | c :: rest => by
    have ih := qlGo_id rest
    constructor
    · intro h
      by_cases hc : c = '['
      · subst hc
        simp only [nlGo, if_pos rfl] at h
        show qlGo rest (some []) = '[' :: rest
        simpa using ih.2 [] h
      · simp only [nlGo, if_neg hc] at h
        simp only [qlGo, if_neg hc]
        rw [ih.1 h]
    · intro acc h
      by_cases hc : c = ']'
      · subst hc
        simp only [nlGo, if_pos rfl] at h
        by_cases hacc : acc.isEmpty = true
        · have hnil : acc = [] := by simpa using hacc
          subst hnil
          simp only [List.isEmpty_nil, if_true] at h
          simp only [qlGo, if_pos rfl, List.isEmpty_nil, if_true]
          rw [ih.1 h]
          simp
        · rw [if_neg hacc] at h
          by_cases hfix : labelFix acc.reverse = '[' :: acc.reverse ++ [']']
          · rw [if_pos hfix] at h
            simp only [qlGo, if_pos rfl, if_neg hacc]
            rw [hfix, ih.1 h]
            simp
          · rw [if_neg hfix] at h
            exact absurd h (by simp)
      · simp only [nlGo, if_neg hc] at h
        simp only [qlGo, if_neg hc]
        rw [ih.2 (c :: acc) h]
        simp

theorem quoteLabels_id (cs : List Char) (h : nlGo cs none = true) :
    quoteLabels cs = cs := (qlGo_id cs).1 h

theorem pipeFix_id : ∀ l : List Char, (∀ x ∈ l, x ≠ '(' ∧ x ≠ ')') → pipeFix l = l
  | [], _ => rfl
  | c :: rest, h => by
    have hc := h c (by simp)
    show (if c = '(' then "#40;".data else if c = ')' then "#41;".data else [c])
        ++ pipeFix rest = c :: rest
    rw [if_neg hc.1, if_neg hc.2, pipeFix_id rest (fun x hx => h x (by simp [hx]))]
    rfl

theorem ppGo_id : ∀ cs : List Char,
    (npGo cs none = true → ppGo cs none = cs) ∧
    (∀ acc, npGo cs (some acc) = true → ppGo cs (some acc) = '|' :: (acc.reverse ++ cs))
  | [] => by
    refine ⟨fun _ => rfl, fun acc _ => ?_⟩
    simp [ppGo]
  | c :: rest => by
    have ih := ppGo_id rest
    constructor
    · intro h
      by_cases hc : c = '|'
      · subst hc
        simp only [npGo, if_pos rfl] at h
        show ppGo rest (some []) = '|' :: rest
        simpa using ih.2 [] h
      · simp only [npGo, if_neg hc] at h
        simp only [ppGo, if_neg hc]
        rw [ih.1 h]
    · intro acc h
      by_cases hc : c = '|'
      · subst hc
        simp only [npGo, if_pos rfl] at h
        by_cases hany : (acc.any fun x => x = '(' || x = ')') = true
        · rw [if_pos hany] at h
          exact absurd h (by simp)
        · rw [if_neg hany] at h
          have h1 : (acc.any fun x => x = '(' || x = ')') = false := by
            simpa using hany
          have h2 : ∀ x ∈ acc.reverse, x ≠ '(' ∧ x ≠ ')' := by
            intro x hx
            have := List.any_eq_false.mp h1 x (List.mem_reverse.mp hx)
            simpa using this
          simp only [ppGo, if_pos rfl]
          rw [pipeFix_id acc.reverse h2, ih.1 h]
          simp
      · simp only [npGo, if_neg hc] at h
        simp only [ppGo, if_neg hc]
        rw [ih.2 (c :: acc) h]
        simp

theorem pipePass_id (cs : List Char) (h : npGo cs none = true) :
    pipePass cs = cs := (ppGo_id cs).1 h

theorem edgePassGo_id : ∀ cs : List Char, noEdgeTrigger cs = true →
    edgePassGo cs.length cs = cs
  | [], _ => rfl
  | c :: rest, h => by
    simp only [noEdgeTrigger, Bool.and_eq_true, Option.isNone_iff_eq_none] at h
    show edgePassGo (rest.length + 1) (c :: rest) = c :: rest
    simp only [edgePassGo, h.1]
    rw [edgePassGo_id rest h.2]

theorem edgePass_id (cs : List Char) (h : noEdgeTrigger cs = true) :
    edgePass cs = cs := edgePassGo_id cs h

theorem qlGo_open (rest : List Char) : qlGo ('[' :: rest) none = qlGo rest (some []) := by
  simp [qlGo]

theorem qlGo_copy {c : Char} (h : c ≠ '[') (rest : List Char) :
    qlGo (c :: rest) none = c :: qlGo rest none := by
  simp [qlGo, h]

theorem qlGo_close (b acc : List Char) :
    qlGo (']' :: b) (some acc) =
      if acc.isEmpty then '[' :: ']' :: qlGo b none
      else labelFix acc.reverse ++ qlGo b none := by
  simp [qlGo]

theorem qlGo_inside {c : Char} (h : c ≠ ']') (b acc : List Char) :
    qlGo (c :: b) (some acc) = qlGo b (some (c :: acc)) := by
  simp [qlGo, h]

/-- Behaviour of the rule-2 scanner on a bracketed label followed by `b`:
the matched label (state plus remaining label characters) goes through
`labelFix`; an empty label leaves the bracket pair unchanged. -/
theorem qlGo_label : ∀ (L b acc : List Char), (∀ c ∈ L, c ≠ ']') →
    qlGo (L ++ ']' :: b) (some acc) =
      if (acc.reverse ++ L).isEmpty then '[' :: ']' :: qlGo b none
      else labelFix (acc.reverse ++ L) ++ qlGo b none
  | [], b, acc, _ => by
    rw [List.nil_append, qlGo_close b acc, List.append_nil]
    by_cases hacc : acc.isEmpty = true
    · have hnil : acc = [] := by simpa using hacc
      subst hnil
      simp
    · rw [if_neg hacc, if_neg (by simpa using hacc)]
  | c :: L, b, acc, h => by
    have hc : c ≠ ']' := h c (by simp)
    rw [List.cons_append, qlGo_inside hc, qlGo_label L b (c :: acc)
      (fun x hx => h x (by simp [hx]))]
    simp [List.reverse_cons, List.append_assoc]

/-! ## Claim C4 -/

/-- C4: each complete bracketed node label `[L]` is rewritten by the
sanitizer's label rule exactly as the spec says — kept when the trimmed label
is already quote-wrapped, else quote-wrapped (with embedded quotes deleted)
when the trimmed label contains one of `( ) / : "`, else kept — and on the
spec's example line the second label gets quoted:
`A[Start] --> B[End (done)]` sanitizes to `A[Start] --> B["End (done)"]`. -/
theorem claim_C4_label_quoting :
    (∀ a L b : List Char, (∀ c ∈ a, c ≠ '[') → L ≠ [] → (∀ c ∈ L, c ≠ ']') →
      quoteLabels (a ++ '[' :: (L ++ ']' :: b)) = a ++ (labelFix L ++ quoteLabels b)) ∧
    sanitizeMermaid "A[Start] --> B[End (done)]".data
      = "A[Start] --> B[\"End (done)\"]".data := by
  constructor
  · intro a L b ha hL hLc
    induction a with
    | nil =>
      simp only [List.nil_append]
      show qlGo ('[' :: (L ++ ']' :: b)) none = labelFix L ++ quoteLabels b
      rw [qlGo_open, qlGo_label L b [] hLc]
      rw [if_neg (by simp [hL])]
      rfl
    | cons x a ih =>
      have hx : x ≠ '[' := ha x (by simp)
      show qlGo (x :: (a ++ '[' :: (L ++ ']' :: b))) none = _
      rw [qlGo_copy hx]
      rw [show qlGo (a ++ '[' :: (L ++ ']' :: b)) none
            = quoteLabels (a ++ '[' :: (L ++ ']' :: b)) from rfl]
      rw [ih (fun c hc => ha c (by simp [hc]))]
      simp
  · decide

theorem claim_C4_label_quoting_witness :
    (∀ c ∈ ("X".data : List Char), c ≠ '[') ∧
    ("a:b".data : List Char) ≠ [] ∧
    (∀ c ∈ ("a:b".data : List Char), c ≠ ']') ∧
    quoteLabels ("X".data ++ '[' :: ("a:b".data ++ ']' :: "Y".data))
      = "X".data ++ (labelFix "a:b".data ++ quoteLabels "Y".data) ∧
    labelFix "a:b".data = "[\"a:b\"]".data :=
  ⟨by decide, by decide, by decide,
   claim_C4_label_quoting.1 "X".data "a:b".data "Y".data (by decide) (by decide) (by decide),
   by decide⟩

/-! ## Claim C6 -/

/-- C6: on text that triggers none of the four repair rules — no `;` at a
multiline end-of-line, no bracket label changed by the label rule, no
parenthesis inside a pipe label, no edge-label match — the sanitizer is the
identity, hence applying it twice equals applying it once. -/
theorem claim_C6_sanitizer_idempotent (t : List Char)
    (h1 : noSemiTrigger t = true) (h2 : nlGo t none = true)
    (h3 : npGo t none = true) (h4 : noEdgeTrigger t = true) :
    sanitizeMermaid (sanitizeMermaid t) = sanitizeMermaid t := by
  have hid : sanitizeMermaid t = t := by
    unfold sanitizeMermaid
    rw [stripSemis_id t h1, quoteLabels_id t h2, pipePass_id t h3, edgePass_id t h4]
  rw [hid]
  exact hid

theorem claim_C6_sanitizer_idempotent_witness :
    noSemiTrigger "graph TD\nA --> B".data = true ∧
    nlGo "graph TD\nA --> B".data none = true ∧
    npGo "graph TD\nA --> B".data none = true ∧
    noEdgeTrigger "graph TD\nA --> B".data = true ∧
    sanitizeMermaid (sanitizeMermaid "graph TD\nA --> B".data)
      = sanitizeMermaid "graph TD\nA --> B".data :=
  ⟨by decide, by decide, by decide, by decide,
   claim_C6_sanitizer_idempotent _ (by decide) (by decide) (by decide) (by decide)⟩

/-! ## Claim C1 -/

/-- C1: for a diagram-source segment whose sanitized and raw renders both
fail, `render` produces exactly the fallback code-block unit whose code
payload is the original segment text HTML-escaped, and that escaped payload
contains no literal `<` or `>` and no unescaped `&`. -/
theorem claim_C1_fallback_escaped (env : RenderEnv) (d : List Char)
    (h1 : env.mermaidRender (sanitizeMermaid d) = none)
    (h2 : env.mermaidRender d = none) :
    renderSeg env ⟨.mermaid, d⟩ = .html (fallbackPre (escapeHtml d)) ∧
      escOk (escapeHtml d) = true := by
  refine ⟨?_, escOk_escapeHtml d⟩
  simp [renderSeg, h1, h2]

theorem claim_C1_fallback_escaped_witness :
    (RenderEnv.mk id fun _ => none).mermaidRender
        (sanitizeMermaid "<script>&\"</script>".data) = none ∧
    (RenderEnv.mk id fun _ => none).mermaidRender "<script>&\"</script>".data = none ∧
    (renderSeg (RenderEnv.mk id fun _ => none) ⟨.mermaid, "<script>&\"</script>".data⟩
        = .html (fallbackPre (escapeHtml "<script>&\"</script>".data)) ∧
      escOk (escapeHtml "<script>&\"</script>".data) = true) :=
  ⟨rfl, rfl, claim_C1_fallback_escaped _ _ rfl rfl⟩

/-! ## Claims C5 and C8: the render loop's unit list and event trace -/

theorem renderGo_units (env : RenderEnv) :
    ∀ (segs : List Segment) (i : Nat), (renderGo env i segs).1 = segs.map (renderSeg env)
  | [], _ => rfl
  | s :: rest, i => by
    simp [renderGo, renderGo_units env rest (i + 1)]

theorem renderGo_trace_length (env : RenderEnv) :
    ∀ (segs : List Segment) (i : Nat), (renderGo env i segs).2.length = 2 * segs.length
  | [], _ => rfl
  | s :: rest, i => by
    simp [renderGo, renderGo_trace_length env rest (i + 1)]
    ring

theorem renderGo_no_publish (env : RenderEnv) :
    ∀ (segs : List Segment) (i : Nat), Ev.publish ∉ (renderGo env i segs).2
  | [], _ => by simp [renderGo]
  | s :: rest, i => by
    simp [renderGo]
    exact renderGo_no_publish env rest (i + 1)

theorem renderGo_get (env : RenderEnv) :
    ∀ (segs : List Segment) (k i : Nat), i < segs.length →
      (renderGo env k segs).2[2 * i]? = some (Ev.issue (k + i)) ∧
      (renderGo env k segs).2[2 * i + 1]? = some (Ev.resolve (k + i))
  | [], _, i, h => absurd h (by simp)
  | s :: rest, k, 0, _ => by simp [renderGo]
  | s :: rest, k, i + 1, h => by
    have ih := renderGo_get env rest (k + 1) i (by simpa using Nat.lt_of_succ_lt_succ h)
    have e1 : 2 * (i + 1) = (2 * i) + 1 + 1 := by ring
    have e2 : 2 * (i + 1) + 1 = (2 * i + 1) + 1 + 1 := by ring
    constructor
    · rw [e1]
      simpa [renderGo, Nat.add_assoc, Nat.add_comm 1 i] using ih.1
    · rw [e2]
      simpa [renderGo, Nat.add_assoc, Nat.add_comm 1 i] using ih.2

/-- C5: one pipeline invocation publishes exactly one unit per segment, in
original segment order, and the trace assigns the list once (`publish`
occurs exactly once, as the final event, after every segment's render has
resolved). -/
theorem claim_C5_publish_once_in_order (env : RenderEnv) (segs : List Segment) :
    (renderRun env segs).1 = segs.map (renderSeg env) ∧
    (renderRun env segs).2.length = 2 * segs.length + 1 ∧
    (renderRun env segs).2.count Ev.publish = 1 ∧
    (renderRun env segs).2.getLast? = some Ev.publish ∧
    (∀ i, i < segs.length → (renderRun env segs).2[2 * i + 1]? = some (Ev.resolve i)) := by
  refine ⟨renderGo_units env segs 0, ?_, ?_, ?_, ?_⟩
  · simp [renderRun, renderGo_trace_length env segs 0]
  · have h := renderGo_no_publish env segs 0
    simp [renderRun, List.count_append, List.count_eq_zero.mpr h]
  · simp [renderRun]
  · intro i hi
    have h := (renderGo_get env segs 0 i hi).2
    have hlen := renderGo_trace_length env segs 0
    rw [renderRun]
    show ((renderGo env 0 segs).2 ++ [Ev.publish])[2 * i + 1]? = some (Ev.resolve i)
    rw [List.getElem?_append, if_pos (by omega)]
    simpa using h

theorem claim_C5_publish_once_in_order_witness :
    (0 : Nat) < ([⟨.mermaid, ['A']⟩] : List Segment).length ∧
    (renderRun (RenderEnv.mk id fun _ => none) [⟨.mermaid, ['A']⟩]).2[2 * 0 + 1]?
      = some (Ev.resolve 0) :=
  ⟨by decide,
   (claim_C5_publish_once_in_order (RenderEnv.mk id fun _ => none)
      [⟨.mermaid, ['A']⟩]).2.2.2.2 0 (by decide)⟩

/-- C8 (counterexample): on a two-diagram message, segment 1's render is
issued strictly after segment 0's render has resolved — the loop `await`s
each segment before issuing the next — so render tasks are *not* issued
without waiting for prior segments' results. -/
theorem claim_C8_counterexample :
    ¬ ((renderRun (RenderEnv.mk id fun _ => none)
          [⟨.mermaid, ['A']⟩, ⟨.mermaid, ['B']⟩]).2.indexOf (Ev.issue 1)
        < (renderRun (RenderEnv.mk id fun _ => none)
          [⟨.mermaid, ['A']⟩, ⟨.mermaid, ['B']⟩]).2.indexOf (Ev.resolve 0)) := by
  decide

/-- C8 (amended): within one pipeline invocation the segment render tasks are
issued *sequentially* — segment `i` is issued at trace position `2i` and
resolves at `2i+1`, so for `i < j` segment `i` resolves before segment `j`
is issued — and the pipeline publishes once, after all of them. -/
theorem claim_C8_amended_sequential (env : RenderEnv) (segs : List Segment)
    (i : Nat) (h : i < segs.length) :
    (renderRun env segs).2[2 * i]? = some (Ev.issue i) ∧
    (renderRun env segs).2[2 * i + 1]? = some (Ev.resolve i) ∧
    (renderRun env segs).2.getLast? = some Ev.publish := by
  have hg := renderGo_get env segs 0 i h
  have hlen := renderGo_trace_length env segs 0
  refine ⟨?_, ?_, by simp [renderRun]⟩
  · rw [renderRun]
    show ((renderGo env 0 segs).2 ++ [Ev.publish])[2 * i]? = some (Ev.issue i)
    rw [List.getElem?_append, if_pos (by omega)]
    simpa using hg.1
  · rw [renderRun]
    show ((renderGo env 0 segs).2 ++ [Ev.publish])[2 * i + 1]? = some (Ev.resolve i)
    rw [List.getElem?_append, if_pos (by omega)]
    simpa using hg.2

theorem claim_C8_amended_sequential_witness :
    (0 : Nat) < ([⟨.mermaid, ['A']⟩] : List Segment).length ∧
    (renderRun (RenderEnv.mk id fun _ => none) [⟨.mermaid, ['A']⟩]).2[2 * 0]?
      = some (Ev.issue 0) :=
  ⟨by decide,
   (claim_C8_amended_sequential (RenderEnv.mk id fun _ => none)
      [⟨.mermaid, ['A']⟩] 0 (by decide)).1⟩

/-! ## Claim C7 -/

/-- C7 (counterexample): a failing owners fetch makes `loadFilters` itself
reject — the failure is *not* silently ignored; it propagates past the
function (whose caller, the sidebar's mounted hook, installs no handler). -/
theorem claim_C7_counterexample :
    loadFilters (.error "network error") (.ok []) (.ok []) ⟨[], [], []⟩
      = .error "network error" := rfl

/-- C7 (amended): the stats fetch failure is silently ignored (the state
keeps its current — initially null — value), but a failure of any of the
three filter metadata fetches — owners, companies, or categories —
propagates out of `loadFilters`, leaving the filter lists unassigned; only
when all three succeed are the lists set. -/
theorem claim_C7_amended_stats_only (_ : Unit) :
    (∀ (e : String) (cur : Option Stats), mountStats (.error e) cur = cur) ∧
    (∀ (e : String) (co ca : Fetch (List String)) (st : FiltersState),
        loadFilters (.error e) co ca st = .error e) ∧
    (∀ (e : String) (o : List String) (ca : Fetch (List String)) (st : FiltersState),
        loadFilters (.ok o) (.error e) ca st = .error e) ∧
    (∀ (e : String) (o co : List String) (st : FiltersState),
        loadFilters (.ok o) (.ok co) (.error e) st = .error e) ∧
    (∀ (o co ca : List String) (st : FiltersState),
        loadFilters (.ok o) (.ok co) (.ok ca) st = .ok ⟨o, co, ca⟩) := by
  refine ⟨fun e cur => rfl, fun e co ca st => ?_, fun e o ca st => ?_,
    fun e o co st => rfl, fun o co ca st => rfl⟩
  · cases co <;> cases ca <;> rfl
  · cases ca <;> rfl

/-! ## Claim C9 -/

theorem chatStep_head (ms : List ChatMsg) (ev : ChatEvent)
    (h : ms.head? = some initialGreeting) :
    (chatStep ms ev).head? = some initialGreeting := by
  cases ms with
  | nil => simp at h
  | cons m t =>
    cases ev with
    | clear => simpa [chatStep] using h
    | send q r =>
      cases r with
      | ok p => cases p; simpa [chatStep] using h
      | error e => simpa [chatStep] using h

theorem chat_foldl_head : ∀ (evs : List ChatEvent) (ms : List ChatMsg),
    ms.head? = some initialGreeting →
    (evs.foldl chatStep ms).head? = some initialGreeting
  | [], ms, h => h
  | ev :: evs, ms, h => chat_foldl_head evs (chatStep ms ev) (chatStep_head ms ev h)

/-- C9: the chat message list is never empty, its first element is always the
initial assistant greeting, `sendMessage` only appends (one user message plus
one assistant message), and `clearChat` resets the list to exactly the single
initial greeting. -/
theorem claim_C9_greeting_invariant (evs : List ChatEvent) :
    chatRun evs ≠ [] ∧
    (chatRun evs).head? = some initialGreeting ∧
    chatRun (evs ++ [ChatEvent.clear]) = initMessages ∧
    (∀ (ms : List ChatMsg) (q : String) (r : Except String (String × List String)),
        (chatStep ms (ChatEvent.send q r)).take ms.length = ms ∧
        (chatStep ms (ChatEvent.send q r)).length = ms.length + 2) := by
  have hh : (chatRun evs).head? = some initialGreeting :=
    chat_foldl_head evs initMessages rfl
  refine ⟨?_, hh, ?_, ?_⟩
  · intro hnil; rw [hnil] at hh; simp at hh
  · rw [chatRun, List.foldl_append]
    show chatStep (chatRun evs) ChatEvent.clear = initMessages
    rw [chatStep]
    cases hms : chatRun evs with
    | nil => rw [hms] at hh; simp at hh
    | cons m t =>
      rw [hms] at hh
      simp at hh
      simp [initMessages, hh]
  · intro ms q r
    cases r with
    | ok p =>
      cases p
      constructor
      · simpa [chatStep] using List.take_left ..
      · simp [chatStep]
    | error e =>
      constructor
      · simpa [chatStep] using List.take_left ..
      · simp [chatStep]

/-! ## Claim C10 -/

/-- C10: `getActiveFilters` includes a key exactly for the truthy (non-null,
non-empty) selections — cleared filters are absent, not null — a truthy
string selection is passed through unchanged, and the year is included as
`parseInt` of the selected string. -/
theorem claim_C10_active_filters (sel : Selections) :
    ((getActiveFilters sel).owner.isSome = isTruthy sel.owner) ∧
    ((getActiveFilters sel).company.isSome = isTruthy sel.company) ∧
    ((getActiveFilters sel).category.isSome = isTruthy sel.category) ∧
    ((getActiveFilters sel).year.isSome = isTruthy sel.year) ∧
    (∀ s : String, sel.owner = some s → s.isEmpty = false →
        (getActiveFilters sel).owner = some s) ∧
    (∀ s : String, sel.year = some s → s.isEmpty = false →
        (getActiveFilters sel).year = some (jsParseInt s)) := by
  obtain ⟨o, co, ca, y⟩ := sel
  refine ⟨?_, ?_, ?_, ?_, ?_, ?_⟩
  · cases o with
    | none => simp [getActiveFilters, isTruthy]
    | some s => by_cases h : s.isEmpty <;> simp [getActiveFilters, isTruthy, h]
  · cases co with
    | none => simp [getActiveFilters, isTruthy]
    | some s => by_cases h : s.isEmpty <;> simp [getActiveFilters, isTruthy, h]
  · cases ca with
    | none => simp [getActiveFilters, isTruthy]
    | some s => by_cases h : s.isEmpty <;> simp [getActiveFilters, isTruthy, h]
  · cases y with
    | none => simp [getActiveFilters, isTruthy]
    | some s => by_cases h : s.isEmpty <;> simp [getActiveFilters, isTruthy, h]
  · intro s hs hne
    cases hs
    simp [getActiveFilters, isTruthy, hne]
  · intro s hs hne
    cases hs
    simp [getActiveFilters, hne]

theorem claim_C10_active_filters_witness :
    (Selections.mk (some "alice") none (some "") (some "2024")).year = some "2024" ∧
    ("2024" : String).isEmpty = false ∧
    (getActiveFilters (Selections.mk (some "alice") none (some "") (some "2024"))).year
      = some (jsParseInt "2024") ∧
    jsParseInt "2024" = some 2024 :=
  ⟨rfl, by decide,
   (claim_C10_active_filters _).2.2.2.2.2 "2024" rfl (by decide),
   by decide⟩

end FH
